import Mathlib

/-!
Verification development for the Delegatecall Surface Scanner.

The definitions below are a shallow embedding of the TypeScript sources:
  * `src/backend/src/analysis/opcodes.ts`          (opcode table, disassembler)
  * `src/backend/src/analysis/cfg.ts`              (basic blocks, CFG)
  * `src/backend/src/analysis/stackTracer.ts`      (symbolic transfer function, join, worklist)
  * `src/backend/src/analysis/targetClassifier.ts` (target classification)
  * `src/backend/src/analysis/proxyPatterns.ts`    (proxy pattern detection)
  * `src/backend/src/analysis/delegateScanner.ts`  (analyzeBytecode, linear transfer, risk)

Conventions of the embedding:
  * JavaScript arrays used as stacks push/pop at the END; here a stack is a
    `List` whose HEAD is the top of the stack, so `array[array.length - 1 - k]`
    corresponds to list position `k`.
  * JavaScript numbers that can be `NaN` (the result of `parseInt` on a
    non-hex chunk) are modelled as `Option Nat`, `none` standing for `NaN`.
  * `JSON.stringify` equality on `StackExpression` values coincides with
    structural equality (the objects are built from fixed literals with a
    fixed key order), so it is modelled by decidable equality.
  * The worklist fixed point of `traceStackAtPC` is given explicit fuel; the
    run returns `none` exactly when the fuel is exhausted before the worklist
    empties, so a `some` result is the value the unbounded loop computes.
  * SHA-256 hashing (`bytecodeHash`) and the dataflow graph output are not
    modelled: no claim refers to them.
-/

namespace DSS

/-- Hex value of a character, as accepted by `parseInt(·, 16)` (the numeric
bounds are the code points of `0`–`9`, `a`–`f`, `A`–`F`). -/
def hexVal (c : Char) : Option Nat :=
  if 48 ≤ c.toNat ∧ c.toNat ≤ 57 then some (c.toNat - 48)
  else if 97 ≤ c.toNat ∧ c.toNat ≤ 102 then some (c.toNat - 97 + 10)
  else if 65 ≤ c.toNat ∧ c.toNat ≤ 70 then some (c.toNat - 65 + 10)
  else none

def isHexChar (c : Char) : Bool := (hexVal c).isSome

/-- `parseInt(chunk, 16)` on a 1- or 2-character chunk: the maximal leading
hex-digit run is parsed, no digits at all gives `NaN` (`none`).  This models
the JavaScript call on chunks made of hex digits and other non-sign,
non-whitespace characters, the only chunks the theorems below use. -/
def parseChunk : List Char → Option Nat
  | [c] => hexVal c
  | [c1, c2] =>
    match hexVal c1 with
    | none => none
    | some v1 =>
      match hexVal c2 with
      | none => some v1
      | some v2 => some (16 * v1 + v2)
  | _ => none

/-- The `for (let i = 0; i < clean.length; i += 2)` chunking loop of
`decodeBytecode`: bytes are parsed in 2-character chunks, a trailing odd
character forms a 1-character chunk. -/
def toBytes : List Char → List (Option Nat)
  | [] => []
  | [c] => [parseChunk [c]]
  | c1 :: c2 :: rest => parseChunk [c1, c2] :: toBytes rest

/-- `String.prototype.startsWith`, on the character-list view (the strings
involved are ASCII, where the two coincide). -/
def jsStartsWith (s pat : String) : Bool :=
  pat.data.isPrefixOf s.data

/-- Strip a leading `0x` (`bytecode.startsWith("0x") ? bytecode.slice(2) : bytecode`). -/
def stripHex (s : String) : String :=
  if jsStartsWith s "0x" then ⟨s.data.drop 2⟩ else s

/-- Lowercase hex digits. -/
def hexDigit (n : Nat) : Char :=
  if n < 10 then Char.ofNat ('0'.toNat + n) else Char.ofNat ('a'.toNat + (n - 10))

/-- `b.toString(16).padStart(2, "0")` for a byte value `b < 256`;
`NaN.toString(16).padStart(2, "0")` is `"NaN"`. -/
def byteHex : Option Nat → List Char
  | none => ['N', 'a', 'N']
  | some v => [hexDigit (v / 16 % 16), hexDigit (v % 16)]

/-- `dataBytes.map((b) => b.toString(16).padStart(2, "0")).join("")`. -/
def bytesHex (bs : List (Option Nat)) : List Char := bs.flatMap byteHex

/-- Static opcode descriptor (interface `OpcodeInfo` of opcodes.ts; the
field `in` is a keyword, hence `stackI`/`stackO`). -/
structure OpcodeInfo where
  name : String
  stackI : Nat
  stackO : Nat
  pushBytes : Option Nat
deriving DecidableEq

/-- The `OPCODES` table of opcodes.ts (the exact set registered by the
`addOpcode` calls). -/
def OPCODES (b : Nat) : Option OpcodeInfo :=
  if 0x60 ≤ b ∧ b ≤ 0x7f then
    some ⟨"PUSH" ++ toString (b - 0x5f), 0, 1, some (b - 0x5f)⟩
  else if 0x80 ≤ b ∧ b ≤ 0x8f then
    some ⟨"DUP" ++ toString (b - 0x7f), b - 0x7f, b - 0x7e, none⟩
  else if 0x90 ≤ b ∧ b ≤ 0x9f then
    some ⟨"SWAP" ++ toString (b - 0x8f), b - 0x8e, b - 0x8e, none⟩
  else
    match b with
    | 0x00 => some ⟨"STOP", 0, 0, none⟩
    | 0x01 => some ⟨"ADD", 2, 1, none⟩
    | 0x02 => some ⟨"MUL", 2, 1, none⟩
    | 0x03 => some ⟨"SUB", 2, 1, none⟩
    | 0x10 => some ⟨"LT", 2, 1, none⟩
    | 0x11 => some ⟨"GT", 2, 1, none⟩
    | 0x14 => some ⟨"EQ", 2, 1, none⟩
    | 0x15 => some ⟨"ISZERO", 1, 1, none⟩
    | 0x33 => some ⟨"CALLER", 0, 1, none⟩
    | 0x34 => some ⟨"CALLVALUE", 0, 1, none⟩
    | 0x35 => some ⟨"CALLDATALOAD", 1, 1, none⟩
    | 0x36 => some ⟨"CALLDATASIZE", 0, 1, none⟩
    | 0x37 => some ⟨"CALLDATACOPY", 3, 0, none⟩
    | 0x3d => some ⟨"RETURNDATASIZE", 0, 1, none⟩
    | 0x3e => some ⟨"RETURNDATACOPY", 3, 0, none⟩
    | 0x51 => some ⟨"MLOAD", 1, 1, none⟩
    | 0x52 => some ⟨"MSTORE", 2, 0, none⟩
    | 0x53 => some ⟨"MSTORE8", 2, 0, none⟩
    | 0x54 => some ⟨"SLOAD", 1, 1, none⟩
    | 0x55 => some ⟨"SSTORE", 2, 0, none⟩
    | 0x56 => some ⟨"JUMP", 1, 0, none⟩
    | 0x57 => some ⟨"JUMPI", 2, 0, none⟩
    | 0x5b => some ⟨"JUMPDEST", 0, 0, none⟩
    | 0xf1 => some ⟨"CALL", 7, 1, none⟩
    | 0xf2 => some ⟨"CALLCODE", 7, 1, none⟩
    | 0xf4 => some ⟨"DELEGATECALL", 6, 1, none⟩
    | 0xfa => some ⟨"STATICCALL", 6, 1, none⟩
    | 0xfd => some ⟨"REVERT", 2, 0, none⟩
    | 0xff => some ⟨"SELFDESTRUCT", 1, 0, none⟩
    | _ => none

/-- `OPCODES[byte]` where `byte` may be `NaN`. -/
def opcodeAt : Option Nat → Option OpcodeInfo
  | none => none
  | some b => OPCODES b

/-- Interface `Opcode` of types/analysis.ts. -/
structure Opcode where
  pc : Nat
  op : String
  pushData : Option String
  stackIn : Nat
  stackOut : Nat
deriving DecidableEq

/-- The unknown-opcode instruction: `{pc, op: 0x<2 hex digits>, stackIn: 0, stackOut: 0}`. -/
def unknownInstr (pc : Nat) (b : Option Nat) : Opcode :=
  ⟨pc, ⟨'0' :: 'x' :: byteHex b⟩, none, 0, 0⟩

/-- The `while (pc < bytes.length)` loop of `decodeBytecode`, recursing on the
unread suffix of the byte vector; `pc` is the cursor at loop entry.  Note that
a known opcode's instruction stores the cursor AFTER advancing (`pc` is
mutated before `instructions.push`), while an unknown byte's instruction
stores the cursor before advancing.  Every iteration consumes at least one
byte, so the loop runs at most `bytes.length` times; the first argument is
that structural bound (`decodeAux` below instantiates it). -/
def decodeAuxF : Nat → List (Option Nat) → Nat → List Opcode
  | _, [], _ => []
  | 0, _ :: _, _ => []
  | fuel + 1, b :: rest, pc =>
    match opcodeAt b with
    | none => unknownInstr pc b :: decodeAuxF fuel rest (pc + 1)
    | some info =>
      match info.pushBytes with
      | some n =>
        ⟨pc + 1 + n, info.name, some ⟨'0' :: 'x' :: bytesHex (rest.take n)⟩,
          info.stackI, info.stackO⟩ :: decodeAuxF fuel (rest.drop n) (pc + 1 + n)
      | none =>
        ⟨pc + 1, info.name, none, info.stackI, info.stackO⟩ :: decodeAuxF fuel rest (pc + 1)

/-- The decode loop on a full byte vector. -/
def decodeAux (bytes : List (Option Nat)) (pc : Nat) : List Opcode :=
  decodeAuxF bytes.length bytes pc

/-- `decodeBytecode` of opcodes.ts. -/
def decodeBytecode (bytecode : String) : List Opcode :=
  decodeAux (toBytes (stripHex bytecode).data) 0

/-- Specification-side count of `0xf4` bytes that are not inside a PUSH
immediate: walk the byte vector, skipping `skip` pending immediate bytes;
at an opcode position, a byte in `0x60..0x7f` (PUSH-N) makes the next
`N = b - 0x5f` bytes immediates, and an `0xf4` at an opcode position counts
one DELEGATECALL. -/
def countF4Aux : List Nat → Nat → Nat
  | [], _ => 0
  | _ :: rest, skip + 1 => countF4Aux rest skip
  | b :: rest, 0 =>
    if 96 ≤ b ∧ b ≤ 127 then countF4Aux rest (b - 95)
    else (if b = 244 then 1 else 0) + countF4Aux rest 0

/-- The number of `0xf4` bytes of a byte vector that do not lie inside a
PUSH immediate. -/
def countF4 (bytes : List Nat) : Nat := countF4Aux bytes 0

/-- The byte values of a well-formed hex input (dropping any `NaN`s; on a
well-formed input there are none). -/
def byteListOf (s : String) : List Nat := (toBytes (stripHex s).data).reduceOption

/-! ## Symbolic expressions (types/analysis.ts) -/

/-- `StackExpression` of types/analysis.ts. -/
inductive StackExpression where
  | Literal (value : String)
  | Storage (slotExpr : StackExpression)
  | Calldata (offsetExpr : StackExpression)
  | Environment (source : String)
  | Op (op : String) (args : List StackExpression)
  | Unknown

mutual
/-- Structural equality of expressions.  `JSON.stringify` equality, used by
the source to compare expressions and stacks, coincides with it: the objects
are built from fixed literals with one fixed key order per variant. -/
def StackExpression.beq : StackExpression → StackExpression → Bool
  | .Literal a, .Literal b => a == b
  | .Storage a, .Storage b => StackExpression.beq a b
  | .Calldata a, .Calldata b => StackExpression.beq a b
  | .Environment a, .Environment b => a == b
  | .Op o1 a1, .Op o2 a2 => o1 == o2 && StackExpression.beqList a1 a2
  | .Unknown, .Unknown => true
  | _, _ => false
/-- Pointwise `StackExpression.beq` on argument lists. -/
def StackExpression.beqList : List StackExpression → List StackExpression → Bool
  | [], [] => true
  | a :: as, b :: bs => StackExpression.beq a b && StackExpression.beqList as bs
  | _, _ => false
end

theorem StackExpression.beq_iff :
    ∀ a b : StackExpression, StackExpression.beq a b = true ↔ a = b := by
  intro a
  refine @StackExpression.rec
    (fun e => ∀ b, StackExpression.beq e b = true ↔ e = b)
    (fun l => ∀ m, StackExpression.beqList l m = true ↔ l = m)
    ?_ ?_ ?_ ?_ ?_ ?_ ?_ ?_ a
  · intro v b; cases b <;> simp [StackExpression.beq]
  · intro e ih b; cases b <;> simp [StackExpression.beq, ih]
  · intro e ih b; cases b <;> simp [StackExpression.beq, ih]
  · intro src b; cases b <;> simp [StackExpression.beq]
  · intro o args ih b; cases b <;> simp [StackExpression.beq, ih]
  · intro b; cases b <;> simp [StackExpression.beq]
  · intro m; cases m <;> simp [StackExpression.beqList]
  · intro x xs ihx ihxs m; cases m <;> simp [StackExpression.beqList, ihx, ihxs]

instance : DecidableEq StackExpression :=
  fun a b => decidable_of_iff _ (StackExpression.beq_iff a b)

/-! ## Transfer functions

Two distinct source functions share the name `applyInstructionToStack`: the
CFG tracer's (stackTracer.ts, namespace `StackTracer` below) and the linear
mode's (delegateScanner.ts, namespace `DelegateScanner` below).

A JavaScript stack array holds the top of the stack at its END; the `List`
model holds the top at its HEAD. -/

/-- The `pop(n)` helper common to both transfer functions: pop `n` slots off
the top of the stack (an empty pop yields `Unknown`), returning the popped
slots in source order — deepest first, exactly the repeated-`unshift` result
— together with the remaining stack. -/
def popN (n : Nat) (stack : List StackExpression) :
    List StackExpression × List StackExpression :=
  ((stack.take n ++ List.replicate (n - stack.length) StackExpression.Unknown).reverse,
    stack.drop n)

/-- `parseInt(digits, 10)` on the digit tail of a `DUP`/`SWAP` mnemonic. -/
def decNat (cs : List Char) : Nat :=
  cs.foldl (fun acc c => 10 * acc + (c.toNat - '0'.toNat)) 0

/-- Swap the stack slots at top-relative positions `0` and `n` (both exist
when this is called). -/
def swapTop (n : Nat) (stack : List StackExpression) : List StackExpression :=
  (stack.set 0 (stack.getD n .Unknown)).set n (stack.getD 0 .Unknown)

namespace StackTracer

/-- The private `getOpcodeInfo` table of stackTracer.ts: `(stackIn, stackOut)`. -/
def getOpcodeInfo (op : String) : Option (Nat × Nat) :=
  if op = "STOP" then some (0, 0)
  else if op = "ADD" then some (2, 1)
  else if op = "MUL" then some (2, 1)
  else if op = "SUB" then some (2, 1)
  else if op = "DIV" then some (2, 1)
  else if op = "MOD" then some (2, 1)
  else if op = "AND" then some (2, 1)
  else if op = "OR" then some (2, 1)
  else if op = "XOR" then some (2, 1)
  else if op = "EQ" then some (2, 1)
  else if op = "LT" then some (2, 1)
  else if op = "GT" then some (2, 1)
  else if op = "ISZERO" then some (1, 1)
  else if op = "CALLDATALOAD" then some (1, 1)
  else if op = "CALLDATASIZE" then some (0, 1)
  else if op = "SLOAD" then some (1, 1)
  else if op = "SSTORE" then some (2, 0)
  else if op = "JUMP" then some (1, 0)
  else if op = "JUMPI" then some (2, 0)
  else if op = "DELEGATECALL" then some (6, 1)
  else if op = "CALL" then some (7, 1)
  else if op = "STATICCALL" then some (6, 1)
  else none

/-- `applyInstructionToStack` of stackTracer.ts.  The `switch` is rendered as
an equality chain (each `case` block ends in `break`).  For mnemonics
produced by the disassembler the `DUP`/`SWAP` digit suffix is in `1..16`. -/
def applyInstructionToStack (op : String) (pushData : Option String)
    (stack : List StackExpression) : List StackExpression :=
  if jsStartsWith op "PUSH" then .Literal (pushData.getD "0x") :: stack
  else if jsStartsWith op "DUP" then
    let n := decNat (op.data.drop 3)
    (if 1 ≤ n ∧ n ≤ stack.length then stack.getD (n - 1) .Unknown else .Unknown) :: stack
  else if jsStartsWith op "SWAP" then
    let n := decNat (op.data.drop 4)
    if n + 1 ≤ stack.length then swapTop n stack else stack
  else if op = "CALLDATALOAD" then
    let (args, rest) := popN 1 stack
    .Calldata (args.getD 0 .Unknown) :: rest
  else if op = "SLOAD" then
    let (args, rest) := popN 1 stack
    .Storage (args.getD 0 .Unknown) :: rest
  else if op = "CALLER" then .Environment "CALLER" :: stack
  else if op = "ADDRESS" then .Environment "ADDRESS" :: stack
  else if op = "ORIGIN" then .Environment "ORIGIN" :: stack
  else if op = "MLOAD" then .Unknown :: (popN 1 stack).2
  else if op = "MSTORE" ∨ op = "MSTORE8" then (popN 2 stack).2
  else if op = "ADD" ∨ op = "SUB" ∨ op = "MUL" ∨ op = "DIV" ∨ op = "MOD" ∨ op = "AND" ∨
      op = "OR" ∨ op = "XOR" ∨ op = "EQ" ∨ op = "LT" ∨ op = "GT" ∨ op = "ISZERO" then
    let (args, rest) := popN (if op = "ISZERO" then 1 else 2) stack
    .Op op args :: rest
  else if op = "POP" then (popN 1 stack).2
  else
    match getOpcodeInfo op with
    | some info => List.replicate info.2 .Unknown ++ stack.drop info.1
    | none => stack

end StackTracer

namespace DelegateScanner

/-- `applyInstructionToStack` of delegateScanner.ts (the linear mode's
transfer function).  Its `switch` has no `MOD`, `ISZERO`, `MLOAD`, `MSTORE`
or `POP` cases; everything unmatched falls into the default, which shrinks
the stack by one (`stack.length = Math.max(0, stack.length - 1)`, dropping
the top slot). -/
def applyInstructionToStack (op : String) (pushData : Option String)
    (stack : List StackExpression) : List StackExpression :=
  if jsStartsWith op "PUSH" then .Literal (pushData.getD "0x") :: stack
  else if jsStartsWith op "DUP" then
    let n := decNat (op.data.drop 3)
    (if 1 ≤ n ∧ n ≤ stack.length then stack.getD (n - 1) .Unknown else .Unknown) :: stack
  else if jsStartsWith op "SWAP" then
    let n := decNat (op.data.drop 4)
    if n + 1 ≤ stack.length then swapTop n stack else stack
  else if op = "CALLDATALOAD" then
    let (args, rest) := popN 1 stack
    .Calldata (args.getD 0 .Unknown) :: rest
  else if op = "SLOAD" then
    let (args, rest) := popN 1 stack
    .Storage (args.getD 0 .Unknown) :: rest
  else if op = "CALLER" then .Environment "CALLER" :: stack
  else if op = "ADDRESS" then .Environment "ADDRESS" :: stack
  else if op = "ORIGIN" then .Environment "ORIGIN" :: stack
  else if op = "ADD" ∨ op = "SUB" ∨ op = "MUL" ∨ op = "DIV" ∨ op = "AND" ∨
      op = "OR" ∨ op = "XOR" ∨ op = "EQ" ∨ op = "LT" ∨ op = "GT" then
    let (args, rest) := popN 2 stack
    .Op op args :: rest
  else stack.drop 1

end DelegateScanner

/-! ## CFG builder (cfg.ts) -/

/-- Interface `BasicBlock` of cfg.ts.  `endPc` is an `Int`: the last block's
`endPc` is `instructions.length - 1`, which is `-1` for an empty stream. -/
structure BasicBlock where
  id : String
  startPc : Nat
  endPc : Int
  instructions : List Opcode
  successors : List Nat
  predecessors : List Nat
deriving DecidableEq

/-- Interface `ControlFlowGraph` of cfg.ts.  The JS `Map` keyed by `startPc`
is modelled as the list of blocks in insertion order (ascending `startPc`,
the order the second pass inserts them). -/
structure ControlFlowGraph where
  blocks : List BasicBlock
  entryBlock : Option BasicBlock
deriving DecidableEq

/-- The `TERMINATORS` set of cfg.ts. -/
def isTerminator (op : String) : Bool :=
  op = "STOP" ∨ op = "RETURN" ∨ op = "REVERT" ∨ op = "SELFDESTRUCT" ∨
    op = "JUMP" ∨ op = "JUMPI"

/-- First pass of `buildCFG`: the leader PCs in insertion order, starting
from the hard-coded `0` (duplicates are later removed, as the JS `Set`
does). -/
def leaderList (instructions : List Opcode) : List Nat :=
  0 :: (List.range instructions.length).foldr
    (fun i acc =>
      match instructions.get? i with
      | none => acc
      | some instr =>
        (if instr.op = "JUMPDEST" then [instr.pc] else []) ++
        (if isTerminator instr.op then
          match instructions.get? (i + 1) with
          | some nxt => [nxt.pc]
          | none => []
        else []) ++ acc)
    []

/-- `pc >= startPc && pc <= endPc` with the `Int`-valued `endPc`. -/
def pcInRange (startPc : Nat) (endPc : Int) (pc : Nat) : Bool :=
  decide (startPc ≤ pc) && decide ((pc : Int) ≤ endPc)

/-- `getBlockContaining` of cfg.ts: the first block (in map insertion order)
whose `[startPc, endPc]` range contains `pc`. -/
def getBlockContaining (blocks : List BasicBlock) (pc : Nat) : Option BasicBlock :=
  blocks.find? (fun b => pcInRange b.startPc b.endPc pc)

/-- Second pass of `buildCFG`: one edgeless block per leader. -/
def mkBlocks (instructions : List Opcode) (sortedLeaders : List Nat) : List BasicBlock :=
  (List.range sortedLeaders.length).map (fun i =>
    let startPc := (sortedLeaders.get? i).getD 0
    let endPc : Int :=
      match sortedLeaders.get? (i + 1) with
      | some nxt => (nxt : Int) - 1
      | none => (instructions.length : Int) - 1
    { id := "block-" ++ toString startPc
      startPc := startPc
      endPc := endPc
      instructions := instructions.filter (fun instr => pcInRange startPc endPc instr.pc)
      successors := []
      predecessors := [] })

/-- Third pass of `buildCFG`: the `(from, to)` edges pushed while iterating
the blocks in insertion order. -/
def cfgEdges (instructions : List Opcode) (blocks : List BasicBlock) : List (Nat × Nat) :=
  blocks.foldr
    (fun block acc =>
      match block.instructions.getLast? with
      | none => acc
      | some lastInstr =>
        if lastInstr.op = "JUMP" then acc
        else if lastInstr.op = "JUMPI" ∨ ¬ isTerminator lastInstr.op then
          match instructions.find? (fun instr => lastInstr.pc < instr.pc) with
          | none => acc
          | some nxt =>
            match getBlockContaining blocks nxt.pc with
            | none => acc
            | some nextBlock => (block.startPc, nextBlock.startPc) :: acc
        else acc)
    []

/-- Numeric ascending insertion sort: the model of
`Array.from(leaders).sort((a, b) => a - b)` (the leader PCs are distinct
after `dedup`, so any ascending sort gives the same list). -/
def insertSorted (x : Nat) : List Nat → List Nat
  | [] => [x]
  | y :: ys => if x ≤ y then x :: y :: ys else y :: insertSorted x ys

def sortNat (l : List Nat) : List Nat := l.foldr insertSorted []

/-- `buildCFG` of cfg.ts. -/
def buildCFG (instructions : List Opcode) : ControlFlowGraph :=
  let sortedLeaders := sortNat (leaderList instructions).dedup
  let blocks0 := mkBlocks instructions sortedLeaders
  let edges := cfgEdges instructions blocks0
  let blocks := blocks0.map (fun b =>
    { b with
      successors := (edges.filter (fun e => e.1 = b.startPc)).map (·.2)
      predecessors := (edges.filter (fun e => e.2 = b.startPc)).map (·.1) })
  { blocks := blocks, entryBlock := blocks.find? (fun b => b.startPc = 0) }

/-! ## Symbolic stack tracer (stackTracer.ts) -/

/-- Interface `BlockState` of stackTracer.ts.  The memory map is written by
no instruction (the transfer function only touches the stack), so it is
modelled as an association list that stays empty. -/
structure BlockState where
  stack : List StackExpression
  memory : List (Nat × StackExpression)
deriving DecidableEq

def emptyState : BlockState := ⟨[], []⟩

namespace StackTracer

/-- `simulateBlock` of stackTracer.ts. -/
def simulateBlock (block : BasicBlock) (initialState : BlockState) : BlockState :=
  { stack := block.instructions.foldl
      (fun st instr => applyInstructionToStack instr.op instr.pushData st) initialState.stack
    memory := initialState.memory }

/-- `joinStates` of stackTracer.ts.  `JSON.stringify` equality of expressions
is structural equality (see `StackExpression.beq`). -/
def joinStates (state1 state2 : BlockState) : BlockState :=
  if state1.stack.length ≠ state2.stack.length then
    { stack := state1.stack.map (fun _ => .Unknown), memory := [] }
  else
    { stack := joinLoop state1.stack state2.stack, memory := [] }
where
  /-- The element-wise loop over `0 ≤ i < state1.stack.length`. -/
  joinLoop : List StackExpression → List StackExpression → List StackExpression
    | [], _ => []
    | _ :: as, [] => .Unknown :: joinLoop as []
    | a :: as, b :: bs => (if a = b then a else .Unknown) :: joinLoop as bs

/-- Map get on the `states` map. -/
def lookupState (states : List (Nat × BlockState)) (k : Nat) : Option BlockState :=
  (states.find? (fun p => p.1 = k)).map (·.2)

/-- Map set on the `states` map (replace in place or append). -/
def setState (states : List (Nat × BlockState)) (k : Nat) (v : BlockState) :
    List (Nat × BlockState) :=
  if states.any (fun p => p.1 = k) then
    states.map (fun p => if p.1 = k then (k, v) else p)
  else states ++ [(k, v)]

/-- One full run of the `while (worklist.length > 0)` loop of
`traceStackAtPC`, with explicit fuel: `none` exactly when the fuel is
exhausted while the worklist is still non-empty, so a `some` result is the
map the unbounded loop terminates with. -/
def traceLoop (cfg : ControlFlowGraph) : Nat → List Nat → List (Nat × BlockState) →
    Option (List (Nat × BlockState))
  | _, [], states => some states
  | 0, _ :: _, _ => none
  | fuel + 1, blockPc :: rest, states =>
    match cfg.blocks.find? (fun b => b.startPc = blockPc) with
    | none => traceLoop cfg fuel rest states
    | some block =>
      let initialState :=
        if block.predecessors.isEmpty then (lookupState states blockPc).getD emptyState
        else
          let predStates := block.predecessors.filterMap (lookupState states)
          if predStates.isEmpty then emptyState
          else predStates.foldl joinStates (predStates.getD 0 emptyState)
      let finalState := simulateBlock block initialState
      let changed :=
        match lookupState states blockPc with
        | none => true
        | some old => old.stack ≠ finalState.stack
      if changed then
        traceLoop cfg fuel
          (block.successors.foldl (fun wl s => if wl.contains s then wl else wl ++ [s]) rest)
          (setState states blockPc finalState)
      else traceLoop cfg fuel rest states

/-- The replay at the end of `traceStackAtPC`: apply the transfer function to
the block's instructions up to (excluding) the first one at `targetPc`. -/
def replayTo (targetPc : Nat) : List Opcode → List StackExpression → List StackExpression
  | [], st => st
  | instr :: rest, st =>
    if instr.pc = targetPc then st
    else replayTo targetPc rest (applyInstructionToStack instr.op instr.pushData st)

/-- `traceStackAtPC` of stackTracer.ts (with the worklist fuel made
explicit). -/
def traceStackAtPC (fuel : Nat) (cfg : ControlFlowGraph) (targetPc : Nat) :
    Option (List StackExpression) :=
  match getBlockContaining cfg.blocks targetPc with
  | none => some []
  | some targetBlock =>
    let states0 :=
      match cfg.entryBlock with
      | some e => [(e.startPc, emptyState)]
      | none => []
    match traceLoop cfg fuel [targetBlock.startPc] states0 with
    | none => none
    | some states =>
      match targetBlock.instructions.find? (fun instr => instr.pc = targetPc) with
      | none => some []
      | some _ =>
        match lookupState states targetBlock.startPc with
        | none => some []
        | some blockState =>
          some (replayTo targetPc targetBlock.instructions blockState.stack)

end StackTracer

/-! ## Target classifier (targetClassifier.ts) -/

/-- `TargetType` of types/analysis.ts. -/
inductive TargetType where
  | hardcoded | storage | calldata | dynamic | unknown
deriving DecidableEq

/-- `TargetClassification` of types/analysis.ts. -/
structure TargetClassification where
  type : TargetType
  addressLiteral : Option String := none
  storageSlotLiteral : Option String := none
  details : Option String := none
deriving DecidableEq

/-- `String.prototype.toLowerCase` on the ASCII strings this code handles. -/
def lowerChar (c : Char) : Char :=
  if 'A' ≤ c ∧ c ≤ 'Z' then Char.ofNat (c.toNat + 32) else c

def toLowerStr (s : String) : String := ⟨s.data.map lowerChar⟩

/-- The `EIP1967_SLOT` constant of targetClassifier.ts (already lowercase). -/
def EIP1967_SLOT : String :=
  "0x360894a13ba1a3210667c828492db98dca3e2076cc3735a920a3ca505d382bbc"

/-- `normalize` of targetClassifier.ts: strip a leading `0x`, re-add `0x`. -/
def normalize (v : String) : String := "0x" ++ stripHex v

/-- `extractStorageSlotLiteral` of targetClassifier.ts. -/
def extractStorageSlotLiteral : StackExpression → Option String
  | .Literal s => some (normalize s)
  | _ => none

/-- `classifyTarget` of targetClassifier.ts. -/
def classifyTarget : StackExpression → TargetClassification
  | .Literal value =>
    let v := normalize value
    if v.length = 40 ∨ v.length = 42 then
      { type := .hardcoded, addressLiteral := some v }
    else
      { type := .unknown, details := some ("literal(" ++ v ++ ")") }
  | .Storage slotExpr =>
    match extractStorageSlotLiteral slotExpr with
    | some slot =>
      { type := .storage
        storageSlotLiteral := some slot
        details := if toLowerStr slot = EIP1967_SLOT then
            some "EIP-1967 implementation slot" else none }
    | none => { type := .storage, details := some "non-literal storage slot" }
  | .Calldata _ => { type := .calldata, details := some "derived from CALLDATALOAD" }
  | .Op o _ => { type := .dynamic, details := some ("op(" ++ o ++ ")") }
  | _ => { type := .unknown }

/-! ## Proxy pattern detector (proxyPatterns.ts) -/

/-- `ProxyPatternMatch` of types/analysis.ts. -/
structure ProxyPatternMatch where
  name : String
  description : String
deriving DecidableEq

/-- `DelegatecallSite` of types/analysis.ts. -/
structure DelegatecallSite where
  id : String
  pc : Nat
  blockId : String
  targetExpression : StackExpression
  classification : TargetClassification
  patternMatch : Option ProxyPatternMatch
deriving DecidableEq

/-- The `EIP1167_PREFIX` constant of proxyPatterns.ts. -/
def eip1167Head : String := "363d3d373d3d3d363d73"

/-- The `EIP1167_SUFFIX` constant of proxyPatterns.ts. -/
def eip1167Tail : String := "5af43d82803e903d91602b57fd5bf3"

/-- The `EIP1967_IMPL_SLOT` constant of proxyPatterns.ts. -/
def EIP1967_IMPL_SLOT : String :=
  "0x360894a13ba1a3210667c828492db98dca3e2076cc3735a920a3ca505d382bbc"

/-- The `UUPS_SLOT` constant of proxyPatterns.ts. -/
def UUPS_SLOT : String :=
  "0xc5f16f0fcc639fa48a6947836d9850f504798523bf8c9a3a87d5876cf622bcf7"

/-- `haystack.indexOf(needle, idx)` on character lists: searches the given
suffix, reporting absolute positions. -/
def findFromAux (pat : List Char) : List Char → Nat → Option Nat
  | [], idx => if pat.isPrefixOf ([] : List Char) then some idx else none
  | c :: t, idx =>
    if pat.isPrefixOf (c :: t) then some idx else findFromAux pat t (idx + 1)

/-- `String.prototype.indexOf(pat, start)` (for the non-empty patterns used
here). -/
def indexOfFrom (hay pat : String) (start : Nat) : Option Nat :=
  findFromAux pat.data (hay.data.drop start) start

/-- `detectEip1167` of proxyPatterns.ts: the prefix, then the suffix no
earlier than 40 characters (a 20-byte implementation address) past it. -/
def detectEip1167 (cleanBytecode : String) : Bool :=
  let lower := toLowerStr cleanBytecode
  match indexOfFrom lower eip1167Head 0 with
  | none => false
  | some idx => (indexOfFrom lower eip1167Tail (idx + eip1167Head.length + 40)).isSome

/-- `detectDiamondPattern` of proxyPatterns.ts.  The JS `Set` built from the
slot literals is modelled by `dedup` (only its size is consumed). -/
def detectDiamondPattern (sites : List DelegatecallSite) : Bool :=
  if sites.length < 2 then false
  else
    let storageSites := sites.filter (fun s => s.classification.type = TargetType.storage)
    if storageSites.length < 2 then false
    else
      let uniqueSlots := (storageSites.filterMap (fun s => s.classification.storageSlotLiteral)).dedup
      decide (2 ≤ uniqueSlots.length)

/-- `detectProxyPatterns` of proxyPatterns.ts. -/
def detectProxyPatterns (bytecode : String) (sites : List DelegatecallSite) :
    List DelegatecallSite :=
  let clean := stripHex bytecode
  let isEip1167 := detectEip1167 clean
  let storageSlots := sites.filterMap (fun s => s.classification.storageSlotLiteral.map toLowerStr)
  let isDiamond := detectDiamondPattern sites
  sites.map (fun site =>
    let patternMatch : Option ProxyPatternMatch :=
      if isEip1167 then some ⟨"EIP-1167", "Minimal proxy clone pattern"⟩
      else if site.classification.storageSlotLiteral.map toLowerStr = some EIP1967_IMPL_SLOT then
        if storageSlots.contains UUPS_SLOT then
          some ⟨"UUPS", "UUPS upgradeable proxy pattern"⟩
        else
          some ⟨"EIP-1967", "EIP-1967 transparent proxy implementation slot"⟩
      else if isDiamond then some ⟨"Diamond", "EIP-2535 Diamond pattern (multiple facets)"⟩
      else none
    { site with patternMatch := patternMatch })

/-- `summarizeProxyPatterns` of proxyPatterns.ts: the `counts` record keeps
keys in first-insertion order, as `Object.entries` reports them. -/
def summarizeProxyPatterns (sites : List DelegatecallSite) : List (String × Nat) :=
  sites.foldl
    (fun counts site =>
      match site.patternMatch with
      | none => counts
      | some pm =>
        if counts.any (fun p => p.1 = pm.name) then
          counts.map (fun p => if p.1 = pm.name then (p.1, p.2 + 1) else p)
        else counts ++ [(pm.name, 1)])
    []

/-! ## Risk, report, `analyzeBytecode` (delegateScanner.ts) -/

/-- `RiskLevel` of types/analysis.ts. -/
inductive RiskLevel where
  | low | medium | high | unknown
deriving DecidableEq

/-- `order.indexOf(r)` for `order = ["low", "medium", "high", "unknown"]`. -/
def riskIdx : RiskLevel → Nat
  | .low => 0
  | .medium => 1
  | .high => 2
  | .unknown => 3

/-- `classifyRisk` of delegateScanner.ts. -/
def classifyRisk (classification : TargetClassification)
    (pattern : Option ProxyPatternMatch) : RiskLevel :=
  if classification.type = TargetType.hardcoded then
    if (pattern.map (·.name)) = some "EIP-1167" then .medium else .low
  else if classification.type = TargetType.storage then .medium
  else if classification.type = TargetType.calldata then .high
  else if classification.type = TargetType.dynamic then .high
  else .unknown

/-- A per-site entry of the final report. -/
structure ReportSite where
  id : String
  pc : Nat
  classification : TargetClassification
  pattern : Option ProxyPatternMatch
  risk : RiskLevel
  notes : List String
deriving DecidableEq

/-- `DelegatecallSurfaceReport` of types/analysis.ts, restricted to the
fields the claims consume (`bytecodeHash` and `graph` are not modelled;
`contractAddress`/`network` are the defaulted `undefined` options). -/
structure Report where
  delegatecallCount : Nat
  overallRisk : Option RiskLevel
  sites : List ReportSite
  proxiesDetected : List (String × Nat)
deriving DecidableEq

/-- The projection of an enriched site into the report's `sites` entry
(`analyzeBytecode`, delegateScanner.ts lines 88–95). -/
def toReportSite (s : DelegatecallSite) : ReportSite where
  id := s.id
  pc := s.pc
  classification := s.classification
  pattern := s.patternMatch
  risk := classifyRisk s.classification s.patternMatch
  notes := []

/-- The CFG-mode site loop of `analyzeBytecode` (delegateScanner.ts lines
33–57): one site per `DELEGATECALL` instruction, target at array index
`stack.length - 2` (top-relative position 1). -/
def cfgSites (fuel : Nat) (cfg : ControlFlowGraph) : List Opcode →
    Option (List DelegatecallSite)
  | [] => some []
  | instr :: rest =>
    if instr.op = "DELEGATECALL" then
      match StackTracer.traceStackAtPC fuel cfg instr.pc with
      | none => none
      | some stack =>
        let targetExpr := if 2 ≤ stack.length then stack.getD 1 .Unknown else .Unknown
        let site : DelegatecallSite :=
          { id := "site-" ++ toString instr.pc
            pc := instr.pc
            blockId := ((getBlockContaining cfg.blocks instr.pc).map (·.id)).getD
              ("block-" ++ toString instr.pc)
            targetExpression := targetExpr
            classification := classifyTarget targetExpr
            patternMatch := none }
        (cfgSites fuel cfg rest).map (fun sites => site :: sites)
    else cfgSites fuel cfg rest

/-- The linear-mode site loop of `analyzeBytecode` (delegateScanner.ts lines
60–82): the transfer function is applied FIRST, then for a `DELEGATECALL`
the target is read from the post-transfer stack at array index
`stack.length - 2`. -/
def linearSites : List Opcode → List StackExpression → List DelegatecallSite
  | [], _ => []
  | instr :: rest, stack =>
    let stack1 := DelegateScanner.applyInstructionToStack instr.op instr.pushData stack
    if instr.op = "DELEGATECALL" then
      let targetExpr := if 2 ≤ stack1.length then stack1.getD 1 .Unknown else .Unknown
      { id := "site-" ++ toString instr.pc
        pc := instr.pc
        blockId := "linear"
        targetExpression := targetExpr
        classification := classifyTarget targetExpr
        patternMatch := none } :: linearSites rest stack1
    else linearSites rest stack1

/-- The `overallRisk` reduction of delegateScanner.ts lines 97–105. -/
def overallRiskOf (reportSites : List ReportSite) : Option RiskLevel :=
  if 0 < reportSites.length then
    some ((reportSites.map (·.risk)).foldl
      (fun acc r => if riskIdx acc < riskIdx r then r else acc) .low)
  else none

/-- `analyzeBytecode` of delegateScanner.ts (with the tracer fuel made
explicit; `opts.contractAddress`/`opts.network` left at their defaults, the
hash and graph fields not modelled). -/
def analyzeBytecode (fuel : Nat) (bytecode : String) (useCFG : Bool) : Option Report :=
  let instructions := decodeBytecode bytecode
  let sitesOpt : Option (List DelegatecallSite) :=
    if useCFG then cfgSites fuel (buildCFG instructions) instructions
    else some (linearSites instructions [])
  sitesOpt.map (fun sites =>
    let enrichedSites := detectProxyPatterns bytecode sites
    let reportSites : List ReportSite := enrichedSites.map toReportSite
    { delegatecallCount := sites.length
      overallRisk := overallRiskOf reportSites
      sites := reportSites
      proxiesDetected := summarizeProxyPatterns enrichedSites })

/-! ## Helper lemmas -/

/-- All the ways an opcode mnemonic can escape every special case of both
transfer functions and the tracer's fallback table. -/
def plainOpFacts (op : String) : Prop :=
  jsStartsWith op "PUSH" = false ∧ jsStartsWith op "DUP" = false ∧ jsStartsWith op "SWAP" = false ∧
  op ≠ "CALLDATALOAD" ∧ op ≠ "SLOAD" ∧ op ≠ "CALLER" ∧ op ≠ "ADDRESS" ∧ op ≠ "ORIGIN" ∧
  op ≠ "MLOAD" ∧ op ≠ "MSTORE" ∧ op ≠ "MSTORE8" ∧ op ≠ "ADD" ∧ op ≠ "SUB" ∧ op ≠ "MUL" ∧
  op ≠ "DIV" ∧ op ≠ "MOD" ∧ op ≠ "AND" ∧ op ≠ "OR" ∧ op ≠ "XOR" ∧ op ≠ "EQ" ∧ op ≠ "LT" ∧
  op ≠ "GT" ∧ op ≠ "ISZERO" ∧ op ≠ "POP" ∧ StackTracer.getOpcodeInfo op = none

instance (op : String) : Decidable (plainOpFacts op) := by
  unfold plainOpFacts; infer_instance

theorem StackTracer.tracerApply_plain (op : String) (pd : Option String)
    (st : List StackExpression) (h : plainOpFacts op) :
    StackTracer.applyInstructionToStack op pd st = st := by
  obtain ⟨h1, h2, h3, h4, h5, h6, h7, h8, h9, h10, h11, h12, h13, h14, h15, h16, h17, h18,
    h19, h20, h21, h22, h23, h24, h25⟩ := h
  simp [StackTracer.applyInstructionToStack, h1, h2, h3, h4, h5, h6, h7, h8, h9, h10, h11,
    h12, h13, h14, h15, h16, h17, h18, h19, h20, h21, h22, h23, h24, h25]

theorem DelegateScanner.linearApply_plain (op : String) (pd : Option String)
    (st : List StackExpression) (h : plainOpFacts op) :
    DelegateScanner.applyInstructionToStack op pd st = st.drop 1 := by
  obtain ⟨h1, h2, h3, h4, h5, h6, h7, h8, _, _, _, h12, h13, h14, h15, _, h17, h18, h19,
    h20, h21, h22, _, _, _⟩ := h
  simp [DelegateScanner.applyInstructionToStack, h1, h2, h3, h4, h5, h6, h7, h8, h12, h13,
    h14, h15, h17, h18, h19, h20, h21, h22]

set_option maxRecDepth 100000 in
theorem unknown_opname_plain :
    ∀ b : Nat, b < 256 → OPCODES b = none → plainOpFacts (unknownInstr 0 (some b)).op := by
  decide

/-! ## The decode walk with recorded cursor positions (for C4 and C9) -/

/-- `decodeAuxF`, additionally recording for each emitted instruction the
cursor value at loop entry (the byte offset of the opcode byte) and the raw
byte read there. -/
def decodeRecAuxF : Nat → List (Option Nat) → Nat → List (Nat × Option Nat × Opcode)
  | _, [], _ => []
  | 0, _ :: _, _ => []
  | fuel + 1, b :: rest, pc =>
    match opcodeAt b with
    | none => (pc, b, unknownInstr pc b) :: decodeRecAuxF fuel rest (pc + 1)
    | some info =>
      match info.pushBytes with
      | some n =>
        (pc, b, ⟨pc + 1 + n, info.name, some ⟨'0' :: 'x' :: bytesHex (rest.take n)⟩,
          info.stackI, info.stackO⟩) :: decodeRecAuxF fuel (rest.drop n) (pc + 1 + n)
      | none =>
        (pc, b, ⟨pc + 1, info.name, none, info.stackI, info.stackO⟩)
          :: decodeRecAuxF fuel rest (pc + 1)

/-- The recording decode walk on a full byte vector. -/
def decodeRec (bytes : List (Option Nat)) (pc : Nat) : List (Nat × Option Nat × Opcode) :=
  decodeRecAuxF bytes.length bytes pc

theorem decodeAuxF_eq_rec (fuel : Nat) :
    ∀ (bytes : List (Option Nat)) (pc : Nat),
      decodeAuxF fuel bytes pc = (decodeRecAuxF fuel bytes pc).map (fun x => x.2.2) := by
  induction fuel with
  | zero => intro bytes pc; cases bytes <;> simp [decodeAuxF, decodeRecAuxF]
  | succ fuel ih =>
    intro bytes pc
    cases bytes with
    | nil => simp [decodeAuxF, decodeRecAuxF]
    | cons b rest =>
      rcases hop : opcodeAt b with _ | info
      · simp [decodeAuxF, decodeRecAuxF, hop, ih]
      · rcases hpb : info.pushBytes with _ | n <;>
          simp [decodeAuxF, decodeRecAuxF, hop, hpb, ih]

theorem decodeRecAuxF_entry (fuel : Nat) :
    ∀ (bytes : List (Option Nat)) (pc0 : Nat),
      ∀ x ∈ decodeRecAuxF fuel bytes pc0,
        pc0 ≤ x.1 ∧ bytes.get? (x.1 - pc0) = some x.2.1 ∧
        (opcodeAt x.2.1 = none → x.2.2.pc = x.1) ∧
        (∀ info, opcodeAt x.2.1 = some info →
          x.2.2.pc = x.1 + 1 + info.pushBytes.getD 0) := by
  induction fuel with
  | zero => intro bytes pc0 x hx; cases bytes <;> simp [decodeRecAuxF] at hx
  | succ fuel ih =>
    intro bytes pc0 x hx
    cases bytes with
    | nil => simp [decodeRecAuxF] at hx
    | cons b rest =>
      rcases hop : opcodeAt b with _ | info
      · simp only [decodeRecAuxF, hop, List.mem_cons] at hx
        rcases hx with rfl | hx
        · refine ⟨Nat.le_refl _, by simp, fun _ => by simp [unknownInstr], fun info h => ?_⟩
          simp [hop] at h
        · obtain ⟨h1, h2, h3, h4⟩ := ih rest (pc0 + 1) x hx
          refine ⟨by omega, ?_, h3, h4⟩
          have he : x.1 - pc0 = (x.1 - (pc0 + 1)) + 1 := by omega
          simpa [he] using h2
      · rcases hpb : info.pushBytes with _ | n
        · simp only [decodeRecAuxF, hop, hpb, List.mem_cons] at hx
          rcases hx with rfl | hx
          · refine ⟨Nat.le_refl _, by simp, fun h => by simp [hop] at h, fun info' h => ?_⟩
            simp only [hop, Option.some.injEq] at h
            subst h
            simp [hpb]
          · obtain ⟨h1, h2, h3, h4⟩ := ih rest (pc0 + 1) x hx
            refine ⟨by omega, ?_, h3, h4⟩
            have he : x.1 - pc0 = (x.1 - (pc0 + 1)) + 1 := by omega
            simpa [he] using h2
        · simp only [decodeRecAuxF, hop, hpb, List.mem_cons] at hx
          rcases hx with rfl | hx
          · refine ⟨Nat.le_refl _, by simp, fun h => by simp [hop] at h, fun info' h => ?_⟩
            simp only [hop, Option.some.injEq] at h
            subst h
            simp [hpb]
          · obtain ⟨h1, h2, h3, h4⟩ := ih (rest.drop n) (pc0 + 1 + n) x hx
            refine ⟨by omega, ?_, h3, h4⟩
            rw [List.get?_drop] at h2
            have he : x.1 - pc0 = (n + (x.1 - (pc0 + 1 + n))) + 1 := by omega
            simpa [he] using h2

theorem decodeAuxF_pc_lb (fuel : Nat) :
    ∀ (bytes : List (Option Nat)) (pc0 : Nat),
      ∀ i ∈ decodeAuxF fuel bytes pc0, pc0 ≤ i.pc := by
  induction fuel with
  | zero => intro bytes pc0 i hi; cases bytes <;> simp [decodeAuxF] at hi
  | succ fuel ih =>
    intro bytes pc0 i hi
    cases bytes with
    | nil => simp [decodeAuxF] at hi
    | cons b rest =>
      rcases hop : opcodeAt b with _ | info
      · simp only [decodeAuxF, hop, List.mem_cons] at hi
        rcases hi with rfl | hi
        · simp [unknownInstr]
        · have := ih rest (pc0 + 1) i hi; omega
      · rcases hpb : info.pushBytes with _ | n
        · simp only [decodeAuxF, hop, hpb, List.mem_cons] at hi
          rcases hi with rfl | hi
          · show pc0 ≤ pc0 + 1; omega
          · have := ih rest (pc0 + 1) i hi; omega
        · simp only [decodeAuxF, hop, hpb, List.mem_cons] at hi
          rcases hi with rfl | hi
          · show pc0 ≤ pc0 + 1 + n; omega
          · have := ih (rest.drop n) (pc0 + 1 + n) i hi; omega

theorem decodeAuxF_pc_pairwise (fuel : Nat) :
    ∀ (bytes : List (Option Nat)) (pc0 : Nat),
      ((decodeAuxF fuel bytes pc0).map (·.pc)).Pairwise (· ≤ ·) := by
  induction fuel with
  | zero => intro bytes pc0; cases bytes <;> simp [decodeAuxF]
  | succ fuel ih =>
    intro bytes pc0
    cases bytes with
    | nil => simp [decodeAuxF]
    | cons b rest =>
      rcases hop : opcodeAt b with _ | info
      · simp only [decodeAuxF, hop, List.map_cons]
        refine List.Pairwise.cons ?_ (ih rest (pc0 + 1))
        intro y hy
        simp only [List.mem_map] at hy
        obtain ⟨i, hi, rfl⟩ := hy
        have := decodeAuxF_pc_lb fuel rest (pc0 + 1) i hi
        simp [unknownInstr]; omega
      · rcases hpb : info.pushBytes with _ | n
        · simp only [decodeAuxF, hop, hpb, List.map_cons]
          refine List.Pairwise.cons ?_ (ih rest (pc0 + 1))
          intro y hy
          simp only [List.mem_map] at hy
          obtain ⟨i, hi, rfl⟩ := hy
          have := decodeAuxF_pc_lb fuel rest (pc0 + 1) i hi
          show pc0 + 1 ≤ i.pc
          omega
        · simp only [decodeAuxF, hop, hpb, List.map_cons]
          refine List.Pairwise.cons ?_ (ih (rest.drop n) (pc0 + 1 + n))
          intro y hy
          simp only [List.mem_map] at hy
          obtain ⟨i, hi, rfl⟩ := hy
          have := decodeAuxF_pc_lb fuel (rest.drop n) (pc0 + 1 + n) i hi
          show pc0 + 1 + n ≤ i.pc
          omega

/-! ## C4: instruction PCs -/

/-- C4 (corrected): in `decodeRec`, each record pairs the byte offset of an
instruction's opcode byte (`x.1`, the cursor at loop entry, certified by the
`bytes.get?` conjunct) with the emitted instruction.  An instruction's `pc`
field equals that offset only for UNKNOWN bytes; for a table opcode it is the
post-advance cursor, `offset + 1 + pushBytes` — not the opcode's own offset.
Consequently the emitted `pc` sequence is merely nondecreasing, not strictly
increasing. -/
theorem C4_pcs (bytes : List (Option Nat)) (pc0 : Nat) :
    decodeAux bytes pc0 = (decodeRec bytes pc0).map (fun x => x.2.2) ∧
    (∀ x ∈ decodeRec bytes pc0,
      pc0 ≤ x.1 ∧ bytes.get? (x.1 - pc0) = some x.2.1 ∧
      (opcodeAt x.2.1 = none → x.2.2.pc = x.1) ∧
      (∀ info, opcodeAt x.2.1 = some info →
        x.2.2.pc = x.1 + 1 + info.pushBytes.getD 0)) ∧
    ((decodeAux bytes pc0).map (·.pc)).Pairwise (· ≤ ·) :=
  ⟨decodeAuxF_eq_rec bytes.length bytes pc0,
    decodeRecAuxF_entry bytes.length bytes pc0,
    decodeAuxF_pc_pairwise bytes.length bytes pc0⟩

/-- C4 counterexample: bytecode `fe00fe` (unknown, `STOP`, unknown) decodes
with pc sequence `[0, 2, 2]`: the `STOP` at byte offset 1 carries pc 2, so
pcs do not equal the opcode byte offsets and are not strictly increasing. -/
theorem C4_cex :
    (decodeBytecode "fe00fe").map (·.pc) = [0, 2, 2] ∧
    (decodeRec (toBytes (stripHex "fe00fe").data) 0).map (fun x => (x.1, x.2.2.pc)) =
      [(0, 0), (1, 2), (2, 2)] ∧
    ¬ List.Chain' (· < ·) [0, 2, 2] ∧
    ¬ (∀ x ∈ decodeRec (toBytes (stripHex "fe00fe").data) 0, x.2.2.pc = x.1) := by
  refine ⟨by decide, by decide, by simp [List.chain'_cons], by decide⟩

/-! ## C9: truncated PUSH immediates -/

/-- `byteHex` of a present byte is two characters. -/
theorem bytesHex_len (l : List (Option Nat)) (h : ∀ v ∈ l, v.isSome = true) :
    (bytesHex l).length = 2 * l.length := by
  induction l with
  | nil => rfl
  | cons v vs ih =>
    rcases v with _ | w
    · exact absurd (h none (by simp)) (by simp)
    · have := ih (fun x hx => h x (by simp [hx]))
      simp [bytesHex, byteHex] at this ⊢
      omega

theorem decodeRecAuxF_pushData_len (fuel : Nat) :
    ∀ (bytes : List (Option Nat)) (pc0 : Nat), (∀ v ∈ bytes, v.isSome = true) →
      ∀ x ∈ decodeRecAuxF fuel bytes pc0, ∀ d, x.2.2.pushData = some d →
        ∃ n, (opcodeAt x.2.1).bind (fun i => i.pushBytes) = some n ∧
          d.length = 2 + 2 * min n (bytes.length - (x.1 - pc0) - 1) := by
  induction fuel with
  | zero => intro bytes pc0 _ x hx; cases bytes <;> simp [decodeRecAuxF] at hx
  | succ fuel ih =>
    intro bytes pc0 hsome x hx d hd
    cases bytes with
    | nil => simp [decodeRecAuxF] at hx
    | cons b rest =>
      have hrest : ∀ v ∈ rest, v.isSome = true := fun v hv => hsome v (by simp [hv])
      rcases hop : opcodeAt b with _ | info
      · simp only [decodeRecAuxF, hop, List.mem_cons] at hx
        rcases hx with rfl | hx
        · simp [unknownInstr] at hd
        · obtain ⟨n, hn, hlen⟩ := ih rest (pc0 + 1) hrest x hx d hd
          have hle := (decodeRecAuxF_entry fuel rest (pc0 + 1) x hx).1
          exact ⟨n, hn, by simp only [List.length_cons]; omega⟩
      · rcases hpb : info.pushBytes with _ | n
        · simp only [decodeRecAuxF, hop, hpb, List.mem_cons] at hx
          rcases hx with rfl | hx
          · simp at hd
          · obtain ⟨m, hm, hlen⟩ := ih rest (pc0 + 1) hrest x hx d hd
            have hle := (decodeRecAuxF_entry fuel rest (pc0 + 1) x hx).1
            exact ⟨m, hm, by simp only [List.length_cons]; omega⟩
        · simp only [decodeRecAuxF, hop, hpb, List.mem_cons] at hx
          rcases hx with rfl | hx
          · refine ⟨n, by simp [hop, hpb], ?_⟩
            simp only at hd
            cases hd
            have : (⟨'0' :: 'x' :: bytesHex (rest.take n)⟩ : String).length =
                2 + (bytesHex (rest.take n)).length := by
              show ('0' :: 'x' :: bytesHex (rest.take n)).length =
                2 + (bytesHex (rest.take n)).length
              simp only [List.length_cons]
              omega
            rw [this, bytesHex_len _ (fun v hv => hrest v (List.mem_of_mem_take hv))]
            simp only [List.length_take, List.length_cons]
            omega
          · have hdrop : ∀ v ∈ rest.drop n, v.isSome = true :=
              fun v hv => hrest v (List.mem_of_mem_drop hv)
            obtain ⟨m, hm, hlen⟩ := ih (rest.drop n) (pc0 + 1 + n) hdrop x hx d hd
            have hle := (decodeRecAuxF_entry fuel (rest.drop n) (pc0 + 1 + n) x hx).1
            refine ⟨m, hm, ?_⟩
            simp only [List.length_drop] at hlen
            simp only [List.length_cons]
            omega

/-- C9 (corrected): a truncated PUSH-N immediate is NOT zero-padded — the
emitted `pushData` is `0x` followed by two hex digits per byte actually
available, i.e. `2 * min N (remaining bytes past the opcode)` digits, which
is fewer than `2N` when the immediate runs past end-of-code. -/
theorem C9_pushdata (bytes : List (Option Nat)) (pc0 : Nat)
    (hsome : ∀ v ∈ bytes, v.isSome = true) :
    ∀ x ∈ decodeRec bytes pc0, ∀ d, x.2.2.pushData = some d →
      ∃ n, (opcodeAt x.2.1).bind (fun i => i.pushBytes) = some n ∧
        d.length = 2 + 2 * min n (bytes.length - (x.1 - pc0) - 1) :=
  decodeRecAuxF_pushData_len bytes.length bytes pc0 hsome

theorem C9_pushdata_witness :
    ∃ n, (opcodeAt (some 96)).bind (fun i => i.pushBytes) = some n ∧
      ("0x" : String).length =
        2 + 2 * min n ((toBytes (stripHex "60").data).length - (0 - 0) - 1) :=
  C9_pushdata (toBytes (stripHex "60").data) 0 (by decide)
    (0, some 96, ⟨2, "PUSH1", some "0x", 0, 1⟩) (by decide) "0x" rfl

/-- C9 counterexample: bytecode `60` is a `PUSH1` whose immediate is wholly
truncated; the emitted `pushData` is `"0x"` with zero digits, not the
zero-padded `"0x00"` with `2·N = 2` digits the claim requires. -/
theorem C9_cex :
    decodeBytecode "60" = [⟨2, "PUSH1", some "0x", 0, 1⟩] ∧
    (∀ i ∈ decodeBytecode "60", ∀ d, i.pushData = some d →
      d.length ≠ 2 + 2 * 1) := by
  refine ⟨by decide, by decide⟩

/-! ## Site lists: structural lemmas (for C1, C2, C7) -/

theorem detectProxyPatterns_pc (bytecode : String) (sites : List DelegatecallSite) :
    (detectProxyPatterns bytecode sites).map (·.pc) = sites.map (·.pc) := by
  simp only [detectProxyPatterns, List.map_map]
  rfl

/-- Projecting `pc` through the report-site record keeps the site pcs. -/
theorem toReport_pcs (l : List DelegatecallSite) :
    (l.map toReportSite).map (fun x => x.pc) = l.map (·.pc) := by
  simp only [List.map_map]
  rfl

theorem cfgSites_pcs (fuel : Nat) (cfg : ControlFlowGraph) :
    ∀ (l : List Opcode) (sites : List DelegatecallSite),
      cfgSites fuel cfg l = some sites →
      sites.map (·.pc) = (l.filter (fun i => decide (i.op = "DELEGATECALL"))).map (·.pc) := by
  intro l
  induction l with
  | nil =>
    intro sites h
    simp only [cfgSites, Option.some.injEq] at h
    subst h; rfl
  | cons i rest ih =>
    intro sites h
    by_cases hop : i.op = "DELEGATECALL"
    · simp only [cfgSites, if_pos hop] at h
      rcases htr : StackTracer.traceStackAtPC fuel cfg i.pc with _ | stack
      · rw [htr] at h; cases h
      · rw [htr] at h
        simp only [Option.map_eq_some'] at h
        obtain ⟨tail, htail, rfl⟩ := h
        simp [List.filter_cons, hop, ih tail htail]
    · simp only [cfgSites, if_neg hop] at h
      simp [List.filter_cons, hop, ih sites h]

theorem linearSites_pcs :
    ∀ (l : List Opcode) (st : List StackExpression),
      (linearSites l st).map (·.pc) =
        (l.filter (fun i => decide (i.op = "DELEGATECALL"))).map (·.pc) := by
  intro l
  induction l with
  | nil => intro st; rfl
  | cons i rest ih =>
    intro st
    by_cases hop : i.op = "DELEGATECALL" <;> simp [linearSites, hop, List.filter_cons, ih]

/-! ## C1: CFG mode vs linear mode -/

/-- C1 (corrected, agreement part): whatever fuels let both runs finish, the
two analysis modes emit their sites at exactly the same PCs — both loops
create one site per `DELEGATECALL` instruction of the same disassembly. -/
theorem C1_modes_same_pcs (bytecode : String) (fuel1 fuel2 : Nat) (r1 r2 : Report)
    (h1 : analyzeBytecode fuel1 bytecode true = some r1)
    (h2 : analyzeBytecode fuel2 bytecode false = some r2) :
    r1.sites.map (·.pc) = r2.sites.map (·.pc) := by
  simp only [analyzeBytecode, if_pos, if_neg, Bool.false_eq_true, ite_true, ite_false,
    Option.map_eq_some'] at h1 h2
  obtain ⟨sites1, hs1, rfl⟩ := h1
  obtain ⟨sites2, hs2, rfl⟩ := h2
  have e1 : (detectProxyPatterns bytecode sites1).map
      (fun s : DelegatecallSite => s.pc) = sites1.map (·.pc) :=
    detectProxyPatterns_pc bytecode sites1
  have e2 : (detectProxyPatterns bytecode sites2).map
      (fun s : DelegatecallSite => s.pc) = sites2.map (·.pc) :=
    detectProxyPatterns_pc bytecode sites2
  have q1 := cfgSites_pcs fuel1 (buildCFG (decodeBytecode bytecode))
    (decodeBytecode bytecode) sites1 hs1
  obtain rfl : linearSites (decodeBytecode bytecode) [] = sites2 := Option.some.inj hs2
  have q2 := linearSites_pcs (decodeBytecode bytecode) []
  have t1 := toReport_pcs (detectProxyPatterns bytecode sites1)
  have t2 := toReport_pcs (detectProxyPatterns bytecode
    (linearSites (decodeBytecode bytecode) []))
  exact (t1.trans (e1.trans q1)).trans ((t2.trans (e2.trans q2)).symm)

theorem C1_modes_same_pcs_witness :
    ∃ r1 r2, analyzeBytecode 100 "f4" true = some r1 ∧
      analyzeBytecode 100 "f4" false = some r2 ∧
      r1.sites.map (·.pc) = r2.sites.map (·.pc) := by
  rcases hr1 : analyzeBytecode 100 "f4" true with _ | r1
  · exact absurd hr1 (by decide)
  · rcases hr2 : analyzeBytecode 100 "f4" false with _ | r2
    · exact absurd hr2 (by decide)
    · exact ⟨r1, r2, rfl, rfl, C1_modes_same_pcs "f4" 100 100 r1 r2 hr1 hr2⟩

/-- The straight-line bytecode refuting classification agreement between the
two modes: four `PUSH1 00`, a `PUSH20` of a 20-byte address, `PUSH1 5a`,
`DELEGATECALL`, then 26 unknown `0x0b` bytes (which keep the single basic
block's `endPc = instructions.length - 1` large enough to cover the
`DELEGATECALL`). -/
def straightLineExample : String :=
  "600060006000600073aaaaaaaaaaaaaaaaaaaaaaaaaaaaaaaaaaaaaaaa605af4" ++
  "0b0b0b0b0b0b0b0b0b0b0b0b0b0b0b0b0b0b0b0b0b0b0b0b0b0b"

/-- C1 counterexample: a bytecode with no `JUMP`/`JUMPI` whose sole
`DELEGATECALL` site is classified `hardcoded` in CFG mode but `unknown` in
linear mode (the linear loop applies the `DELEGATECALL` transfer — shrinking
the stack by one — before reading index `length - 2`, so it reads the
`inOffset` literal `0x00` instead of the address). -/
theorem C1_cex :
    (∀ i ∈ decodeBytecode straightLineExample, i.op ≠ "JUMP" ∧ i.op ≠ "JUMPI") ∧
    (analyzeBytecode 100 straightLineExample true).map
      (fun r => r.sites.map (fun site => site.classification.type)) =
      some [TargetType.hardcoded] ∧
    (analyzeBytecode 100 straightLineExample false).map
      (fun r => r.sites.map (fun site => site.classification.type)) =
      some [TargetType.unknown] ∧
    TargetType.hardcoded ≠ TargetType.unknown := by
  refine ⟨by decide, by decide, by decide, by decide⟩

/-! ## C2: DELEGATECALL count -/

theorem hexVal_lt (c : Char) (v : Nat) (h : hexVal c = some v) : v < 16 := by
  unfold hexVal at h
  split_ifs at h <;> simp_all <;> omega

theorem toBytes_wellformed :
    ∀ cs : List Char, cs.length % 2 = 0 → (∀ c ∈ cs, isHexChar c = true) →
      ∃ bs : List Nat, toBytes cs = bs.map some ∧ ∀ v ∈ bs, v < 256 := by
  intro cs
  induction cs using toBytes.induct with
  | case1 => exact fun _ _ => ⟨[], rfl, by simp⟩
  | case2 c => intro h _; simp at h
  | case3 c1 c2 rest ih =>
    intro heven hhex
    have h1 : isHexChar c1 = true := hhex c1 (by simp)
    have h2 : isHexChar c2 = true := hhex c2 (by simp)
    rcases hv1 : hexVal c1 with _ | v1
    · simp [isHexChar, hv1] at h1
    rcases hv2 : hexVal c2 with _ | v2
    · simp [isHexChar, hv2] at h2
    obtain ⟨bs, hbs, hlt⟩ := ih
      (by simp only [List.length_cons] at heven; omega)
      (fun c hc => hhex c (by simp [hc]))
    refine ⟨(16 * v1 + v2) :: bs, ?_, ?_⟩
    · simp [toBytes, parseChunk, hv1, hv2, hbs]
    · intro v hv
      rcases List.mem_cons.mp hv with rfl | hv
      · have b1 := hexVal_lt c1 v1 hv1
        have b2 := hexVal_lt c2 v2 hv2
        omega
      · exact hlt v hv

set_option maxRecDepth 100000 in
theorem OPCODES_facts :
    ∀ b : Nat, b < 256 →
      ((OPCODES b).bind (fun i => i.pushBytes) =
        if 96 ≤ b ∧ b ≤ 127 then some (b - 95) else none) ∧
      (((OPCODES b).map (fun i => i.name) = some "DELEGATECALL") ↔ b = 244) ∧
      ((unknownInstr 0 (some b)).op ≠ "DELEGATECALL") := by
  decide

theorem countF4Aux_skip : ∀ (l : List Nat) (k : Nat), countF4Aux l k = countF4 (l.drop k) := by
  intro l
  induction l with
  | nil => intro k; cases k <;> rfl
  | cons x rest ih =>
    intro k
    cases k with
    | zero => rfl
    | succ k => simpa [countF4Aux] using ih k

theorem decode_countF4 (fuel : Nat) :
    ∀ (bytes : List Nat) (pc0 : Nat), bytes.length ≤ fuel → (∀ v ∈ bytes, v < 256) →
      ((decodeAuxF fuel (bytes.map some) pc0).filter
        (fun i => decide (i.op = "DELEGATECALL"))).length = countF4 bytes := by
  induction fuel with
  | zero =>
    intro bytes pc0 hlen _
    have hnil : bytes = [] := List.length_eq_zero.mp (Nat.le_zero.mp hlen)
    subst hnil; rfl
  | succ fuel ih =>
    intro bytes pc0 hlen hlt
    cases bytes with
    | nil => rfl
    | cons b rest =>
      have hb : b < 256 := hlt b (by simp)
      have hrest : ∀ v ∈ rest, v < 256 := fun v hv => hlt v (by simp [hv])
      obtain ⟨hpush, hdc, hunk⟩ := OPCODES_facts b hb
      simp only [List.map_cons, List.length_cons] at hlen ⊢
      have hskip : countF4 (b :: rest) = countF4Aux (b :: rest) 0 := rfl
      rcases hop : OPCODES b with _ | info
      · have hnp : ¬ (96 ≤ b ∧ b ≤ 127) := by
          intro hr; rw [hop] at hpush; simp [hr] at hpush
        have hne : b ≠ 244 := by
          intro hr; subst hr; rw [hop] at hdc; simp at hdc
        have hop' : opcodeAt (some b) = none := by simp [opcodeAt, hop]
        have hname : ¬ ((unknownInstr pc0 (some b)).op = "DELEGATECALL") := hunk
        rw [hskip]
        simp only [decodeAuxF, hop', countF4Aux, hnp, if_false, if_neg hne]
        rw [List.filter_cons_of_neg (by simpa using hname)]
        simpa using ih rest (pc0 + 1) (by omega) hrest
      · have hop' : opcodeAt (some b) = some info := by simp [opcodeAt, hop]
        rcases hpb : info.pushBytes with _ | n
        · have hnp : ¬ (96 ≤ b ∧ b ≤ 127) := by
            intro hr; rw [hop] at hpush; simp [hr, hpb] at hpush
          rw [hskip]
          simp only [decodeAuxF, hop', hpb, countF4Aux, hnp, if_false]
          by_cases hb244 : b = 244
          · have hname : info.name = "DELEGATECALL" := by
              rw [hop] at hdc
              simpa using hdc.mpr hb244
            rw [List.filter_cons_of_pos (by simpa using hname)]
            simp only [List.length_cons, if_pos hb244]
            rw [ih rest (pc0 + 1) (by omega) hrest]
            have : countF4 rest = countF4Aux rest 0 := rfl
            omega
          · have hname : info.name ≠ "DELEGATECALL" := by
              intro he
              exact hb244 (hdc.mp (by rw [hop]; simp [he]))
            rw [List.filter_cons_of_neg (by simpa using hname)]
            simp only [if_neg hb244]
            rw [ih rest (pc0 + 1) (by omega) hrest]
            have : countF4 rest = countF4Aux rest 0 := rfl
            omega
        · have hp : 96 ≤ b ∧ b ≤ 127 ∧ n = b - 95 := by
            rw [hop] at hpush
            by_cases hr : 96 ≤ b ∧ b ≤ 127
            · rw [if_pos hr] at hpush
              simp only [Option.some_bind, hpb, Option.some.injEq] at hpush
              exact ⟨hr.1, hr.2, hpush⟩
            · simp [hr, hpb] at hpush
          have hname : info.name ≠ "DELEGATECALL" := by
            intro he
            have hb' : b = 244 := hdc.mp (by rw [hop]; simp [he])
            omega
          rw [hskip]
          simp only [decodeAuxF, hop', hpb, countF4Aux, if_pos (And.intro hp.1 hp.2.1)]
          rw [List.filter_cons_of_neg (by simpa using hname)]
          rw [← List.map_drop]
          rw [ih (rest.drop n) (pc0 + 1 + n) (by simp only [List.length_drop]; omega)
            (fun v hv => hrest v (List.mem_of_mem_drop hv))]
          rw [hp.2.2]
          exact (countF4Aux_skip rest (b - 95)).symm

theorem reduceOption_map_some (l : List Nat) : (l.map some).reduceOption = l := by
  induction l with
  | nil => rfl
  | cons x xs ih => simp [List.reduceOption_cons_of_some, ih]

theorem sites_length_of_pcs {sites : List DelegatecallSite} {l : List Opcode}
    (h : sites.map (·.pc) =
      (l.filter (fun i => decide (i.op = "DELEGATECALL"))).map (·.pc)) :
    sites.length = (l.filter (fun i => decide (i.op = "DELEGATECALL"))).length := by
  have hl := congrArg List.length h
  simpa using hl

/-- C2 (confirmed): for well-formed hex input (even length, hex characters
only), the report's `delegatecallCount` equals the number of `DELEGATECALL`
instructions the disassembler emits, which equals the number of `0xf4` bytes
not inside a PUSH immediate (`countF4` walks the byte vector skipping each
PUSH-N's N immediate bytes); this holds in both CFG and linear modes. -/
theorem C2_delegatecall_count (s : String) (fuel : Nat) (useCFG : Bool) (r : Report)
    (heven : (stripHex s).data.length % 2 = 0)
    (hhex : ∀ c ∈ (stripHex s).data, isHexChar c = true)
    (hr : analyzeBytecode fuel s useCFG = some r) :
    r.delegatecallCount =
      ((decodeBytecode s).filter (fun i => decide (i.op = "DELEGATECALL"))).length ∧
    r.delegatecallCount = countF4 (byteListOf s) := by
  obtain ⟨bs, hbs, hlt⟩ := toBytes_wellformed (stripHex s).data heven hhex
  have hcount : ((decodeBytecode s).filter
      (fun i => decide (i.op = "DELEGATECALL"))).length = countF4 bs := by
    show ((decodeAuxF (toBytes (stripHex s).data).length
      (toBytes (stripHex s).data) 0).filter (fun i => decide (i.op = "DELEGATECALL"))).length
      = countF4 bs
    rw [hbs]
    exact decode_countF4 (bs.map some).length bs 0 (by simp) hlt
  have hbl : byteListOf s = bs := by
    unfold byteListOf
    rw [hbs]
    exact reduceOption_map_some bs
  simp only [analyzeBytecode, Option.map_eq_some'] at hr
  obtain ⟨sites, hs, rfl⟩ := hr
  have hlen : sites.length =
      ((decodeBytecode s).filter (fun i => decide (i.op = "DELEGATECALL"))).length := by
    cases useCFG with
    | false =>
      rw [if_neg (by simp)] at hs
      obtain rfl : linearSites (decodeBytecode s) [] = sites := Option.some.inj hs
      exact sites_length_of_pcs (linearSites_pcs (decodeBytecode s) [])
    | true =>
      rw [if_pos rfl] at hs
      exact sites_length_of_pcs
        (cfgSites_pcs fuel (buildCFG (decodeBytecode s)) (decodeBytecode s) sites hs)
  refine ⟨hlen, ?_⟩
  rw [hbl]
  exact hlen.trans hcount

/-- The single report site `analyzeBytecode` produces for the bytecode `f4`
in linear mode (used by concrete witnesses). -/
def f4Site : ReportSite :=
  { id := "site-1"
    pc := 1
    classification := { type := .unknown }
    pattern := none
    risk := .unknown
    notes := [] }

/-- The report `analyzeBytecode` produces for the bytecode `f4` in linear
mode (used by concrete witnesses). -/
def f4Report : Report :=
  { delegatecallCount := 1
    overallRisk := some .unknown
    sites := [f4Site]
    proxiesDetected := [] }

theorem C2_delegatecall_count_witness :
    f4Report.delegatecallCount =
      ((decodeBytecode "f4").filter (fun i => decide (i.op = "DELEGATECALL"))).length ∧
    f4Report.delegatecallCount = countF4 (byteListOf "f4") :=
  C2_delegatecall_count "f4" 0 false f4Report (by decide) (by decide) (by decide)

/-! ## C7: overall risk -/

theorem riskFold_spec (l : List RiskLevel) (acc : RiskLevel) :
    (l.foldl (fun a r => if riskIdx a < riskIdx r then r else a) acc = acc ∨
      l.foldl (fun a r => if riskIdx a < riskIdx r then r else a) acc ∈ l) ∧
    riskIdx acc ≤ riskIdx (l.foldl (fun a r => if riskIdx a < riskIdx r then r else a) acc) ∧
    (∀ x ∈ l, riskIdx x ≤
      riskIdx (l.foldl (fun a r => if riskIdx a < riskIdx r then r else a) acc)) := by
  induction l generalizing acc with
  | nil => exact ⟨Or.inl rfl, Nat.le_refl _, by simp⟩
  | cons y ys ih =>
    simp only [List.foldl_cons]
    obtain ⟨h1, h2, h3⟩ := ih (if riskIdx acc < riskIdx y then y else acc)
    have hacc : riskIdx acc ≤ riskIdx (if riskIdx acc < riskIdx y then y else acc) := by
      split <;> omega
    have hy : riskIdx y ≤ riskIdx (if riskIdx acc < riskIdx y then y else acc) := by
      split <;> omega
    refine ⟨?_, Nat.le_trans hacc h2, ?_⟩
    · rcases h1 with h1 | h1
      · rw [h1]
        split
        · exact Or.inr (List.mem_cons_self _ _)
        · exact Or.inl rfl
      · exact Or.inr (List.mem_cons_of_mem _ h1)
    · intro x hx
      rcases List.mem_cons.mp hx with rfl | hx
      · exact Nat.le_trans hy h2
      · exact h3 x hx

theorem riskIdx_zero (x : RiskLevel) (h : riskIdx x ≤ riskIdx .low) : x = .low := by
  cases x <;> simp [riskIdx] at h ⊢

theorem overallRiskOf_spec (l : List ReportSite) :
    (overallRiskOf l = none ↔ l = []) ∧
    (∀ m, overallRiskOf l = some m →
      m ∈ l.map (·.risk) ∧ ∀ x ∈ l.map (·.risk), riskIdx x ≤ riskIdx m) := by
  constructor
  · by_cases h : 0 < l.length
    · simp only [overallRiskOf, if_pos h]
      constructor
      · intro hc; cases hc
      · intro hc; subst hc; simp at h
    · simp only [overallRiskOf, if_neg h]
      have : l = [] := List.length_eq_zero.mp (by omega)
      simp [this]
  · intro m hm
    by_cases h : 0 < l.length
    · rw [overallRiskOf, if_pos h] at hm
      obtain ⟨h1, h2, h3⟩ := riskFold_spec (l.map (·.risk)) .low
      obtain rfl := (Option.some.inj hm).symm
      refine ⟨?_, h3⟩
      rcases h1 with h1 | h1
      · cases l with
        | nil => simp at h
        | cons a t =>
          have hmem : a.risk ∈ (a :: t).map (·.risk) := by simp
          have := riskIdx_zero a.risk (h1 ▸ h3 a.risk hmem)
          rw [h1, ← this]
          exact hmem
      · exact h1
    · rw [overallRiskOf, if_neg h] at hm
      cases hm

/-- C7 (confirmed): the report's `overallRisk` is absent exactly when there
are no sites, and when present it is a maximum of the per-site risks under
the order `low < medium < high < unknown` (measured by `riskIdx`, the index
in the source's `order` array — in particular a single `unknown`-risk site
dominates a `high` one). -/
theorem C7_overall_risk (s : String) (fuel : Nat) (useCFG : Bool) (r : Report)
    (hr : analyzeBytecode fuel s useCFG = some r) :
    (r.overallRisk = none ↔ r.sites = []) ∧
    (∀ m, r.overallRisk = some m →
      m ∈ r.sites.map (·.risk) ∧ ∀ x ∈ r.sites.map (·.risk), riskIdx x ≤ riskIdx m) := by
  simp only [analyzeBytecode, Option.map_eq_some'] at hr
  obtain ⟨sites, _, rfl⟩ := hr
  exact overallRiskOf_spec _

theorem C7_overall_risk_witness :
    (f4Report.overallRisk = none ↔ f4Report.sites = []) ∧
    (∀ m, f4Report.overallRisk = some m →
      m ∈ f4Report.sites.map (·.risk) ∧
      ∀ x ∈ f4Report.sites.map (·.risk), riskIdx x ≤ riskIdx m) :=
  C7_overall_risk "f4" 0 false f4Report (by decide)

/-! ## C5: literal classification -/

/-- C5 (corrected): `classifyTarget` on `Literal(v)` returns `hardcoded`
exactly when `v` stripped of a leading `0x` has **38 or 40** characters (the
source checks `normalize(v).length`, which is the stripped length plus the
two re-added `0x` characters, against 40 or 42), with no check that the
characters are hex digits; every other length yields `unknown` with
`details = "literal(" + normalize(v) + ")"`. -/
theorem C5_classify (v : String) :
    classifyTarget (.Literal v) =
      (if (stripHex v).length = 38 ∨ (stripHex v).length = 40 then
        { type := TargetType.hardcoded, addressLiteral := some (normalize v) }
      else
        { type := TargetType.unknown,
          details := some ("literal(" ++ normalize v ++ ")") }) := by
  have hlen : (normalize v).length = 2 + (stripHex v).length := by
    have h2 : ("0x" : String).length = 2 := rfl
    simp [normalize, String.length_append, h2]
  by_cases h : (stripHex v).length = 38 ∨ (stripHex v).length = 40
  · have h' : (normalize v).length = 40 ∨ (normalize v).length = 42 := by omega
    simp [classifyTarget, h, h']
  · have h' : ¬ ((normalize v).length = 40 ∨ (normalize v).length = 42) := by omega
    simp [classifyTarget, h, h']

/-- C5 counterexample: a literal whose stripped form has 38 hex characters
(19 bytes, e.g. the immediate of a `PUSH19`) is classified `hardcoded`, while
the claim requires every stripped length other than 40 to yield `unknown`. -/
theorem C5_cex :
    (stripHex "0xaaaaaaaaaaaaaaaaaaaaaaaaaaaaaaaaaaaaaa").length = 38 ∧
    classifyTarget (.Literal "0xaaaaaaaaaaaaaaaaaaaaaaaaaaaaaaaaaaaaaa") =
      { type := TargetType.hardcoded,
        addressLiteral := some "0xaaaaaaaaaaaaaaaaaaaaaaaaaaaaaaaaaaaaaa" } ∧
    TargetType.hardcoded ≠ TargetType.unknown := by
  refine ⟨by decide, by decide, by decide⟩

/-! ## C10: state join -/

theorem joinLoop_eq_zipWith :
    ∀ a b : List StackExpression, a.length = b.length →
      StackTracer.joinStates.joinLoop a b =
        List.zipWith (fun x y => if x = y then x else .Unknown) a b := by
  intro a
  induction a with
  | nil => intro b _; cases b <;> rfl
  | cons x xs ih =>
    intro b hb
    cases b with
    | nil => simp at hb
    | cons y ys =>
      simp only [StackTracer.joinStates.joinLoop, List.zipWith]
      rw [ih ys (by simpa using hb)]

/-- C10 (corrected): `joinStates` always returns an empty memory; when the
two stack depths differ the result is a stack of `Unknown`s of the FIRST
argument's depth (not of a "common" depth — the operation is asymmetric);
when the depths agree the join is element-wise, keeping structurally
identical slots and degrading the rest to `Unknown`. -/
theorem C10_join (s1 s2 : BlockState) :
    (StackTracer.joinStates s1 s2).memory = [] ∧
    (s1.stack.length ≠ s2.stack.length →
      (StackTracer.joinStates s1 s2).stack = List.replicate s1.stack.length .Unknown) ∧
    (s1.stack.length = s2.stack.length →
      (StackTracer.joinStates s1 s2).stack =
        List.zipWith (fun x y => if x = y then x else .Unknown) s1.stack s2.stack) := by
  refine ⟨?_, ?_, ?_⟩
  · unfold StackTracer.joinStates; split <;> rfl
  · intro h
    unfold StackTracer.joinStates
    rw [if_pos h]
    exact List.map_const s1.stack _
  · intro h
    unfold StackTracer.joinStates
    rw [if_neg (by simp [h])]
    exact joinLoop_eq_zipWith _ _ h

/-- C10 counterexample: joining depth-1 with depth-0 gives a depth-1 stack,
joining depth-0 with depth-1 gives a depth-0 stack — so the depth-mismatch
result does not have a "common depth" of the two inputs (it copies the first
argument's depth). -/
theorem C10_cex :
    StackTracer.joinStates ⟨[.Literal "0x01"], []⟩ ⟨[], []⟩ = ⟨[.Unknown], []⟩ ∧
    StackTracer.joinStates ⟨[], []⟩ ⟨[.Literal "0x01"], []⟩ = ⟨[], []⟩ ∧
    (StackTracer.joinStates ⟨[.Literal "0x01"], []⟩ ⟨[], []⟩).stack.length ≠
      (StackTracer.joinStates ⟨[], []⟩ ⟨[.Literal "0x01"], []⟩).stack.length := by
  refine ⟨by decide, by decide, by decide⟩

/-! ## C8: unknown-byte opcodes -/

/-- C8 (corrected): for an unknown-byte mnemonic (`0xNN`), the linear mode's
transfer function pops exactly one slot and pushes nothing, but the CFG
tracer's transfer function leaves the stack untouched (its default branch
does nothing when the mnemonic is absent from `getOpcodeInfo`). -/
theorem C8_unknown_transfer (b pc : Nat) (pd : Option String) (st : List StackExpression)
    (hb : b < 256) (hu : OPCODES b = none) :
    StackTracer.applyInstructionToStack (unknownInstr pc (some b)).op pd st = st ∧
    DelegateScanner.applyInstructionToStack (unknownInstr pc (some b)).op pd st = st.drop 1 := by
  have h : plainOpFacts (unknownInstr pc (some b)).op := unknown_opname_plain b hb hu
  exact ⟨StackTracer.tracerApply_plain _ _ _ h, DelegateScanner.linearApply_plain _ _ _ h⟩

theorem C8_unknown_transfer_witness :
    StackTracer.applyInstructionToStack (unknownInstr 0 (some 11)).op none
      [StackExpression.Literal "0x01"] = [StackExpression.Literal "0x01"] ∧
    DelegateScanner.applyInstructionToStack (unknownInstr 0 (some 11)).op none
      [StackExpression.Literal "0x01"] = [StackExpression.Literal "0x01"].drop 1 :=
  C8_unknown_transfer 11 0 none [StackExpression.Literal "0x01"] (by decide) (by decide)

/-- C8 counterexample: the byte `0x0b` is not in the opcode table, so the
disassembler renders it `"0x0b"`; on the stack `[Literal "0x01"]` the CFG
tracer's transfer function returns the stack unchanged (the claim requires it
to pop one slot), while the linear transfer function does pop one slot. -/
theorem C8_cex :
    decodeBytecode "0b" = [⟨0, "0x0b", none, 0, 0⟩] ∧
    StackTracer.applyInstructionToStack "0x0b" none [StackExpression.Literal "0x01"] =
      [StackExpression.Literal "0x01"] ∧
    DelegateScanner.applyInstructionToStack "0x0b" none [StackExpression.Literal "0x01"] =
      [] ∧
    ([StackExpression.Literal "0x01"] : List StackExpression) ≠ [] := by
  refine ⟨by decide, by decide, by decide, by decide⟩

/-! ## C6: proxy pattern attachment -/

theorem findFromAux_some (pat : List Char) :
    ∀ (rest : List Char) (idx j : Nat), findFromAux pat rest idx = some j →
      idx ≤ j ∧ pat <+: rest.drop (j - idx) := by
  intro rest
  induction rest with
  | nil =>
    intro idx j h
    simp only [findFromAux] at h
    split at h
    · cases h
      refine ⟨Nat.le_refl _, ?_⟩
      rw [Nat.sub_self]
      exact List.isPrefixOf_iff_prefix.mp (by assumption)
    · cases h
  | cons c t ih =>
    intro idx j h
    simp only [findFromAux] at h
    split at h
    · cases h
      refine ⟨Nat.le_refl _, ?_⟩
      rw [Nat.sub_self]
      exact List.isPrefixOf_iff_prefix.mp (by assumption)
    · obtain ⟨h1, h2⟩ := ih (idx + 1) j h
      refine ⟨by omega, ?_⟩
      have he : j - idx = (j - (idx + 1)) + 1 := by omega
      rw [he]
      simpa using h2

theorem findFromAux_found (pat : List Char) :
    ∀ (rest : List Char) (idx k : Nat), idx ≤ k → pat <+: rest.drop (k - idx) →
      ∃ j, findFromAux pat rest idx = some j ∧ j ≤ k := by
  intro rest
  induction rest with
  | nil =>
    intro idx k _ hp
    refine ⟨idx, ?_, by omega⟩
    simp only [List.drop_nil] at hp
    simp [findFromAux, List.isPrefixOf_iff_prefix.mpr hp]
  | cons c t ih =>
    intro idx k hk hp
    by_cases hpre : pat.isPrefixOf (c :: t)
    · exact ⟨idx, by simp [findFromAux, hpre], by omega⟩
    · have hlt : idx < k := by
        rcases Nat.eq_or_lt_of_le hk with rfl | h
        · exfalso
          simp only [Nat.sub_self, List.drop_zero] at hp
          exact hpre (List.isPrefixOf_iff_prefix.mpr hp)
        · exact h
      have he : k - idx = (k - (idx + 1)) + 1 := by omega
      rw [he] at hp
      obtain ⟨j, hj, hjk⟩ := ih (idx + 1) k (by omega) (by simpa using hp)
      exact ⟨j, by simp [findFromAux, hpre, hj], hjk⟩

/-- The EIP-1167 byte-level pattern as the spec states it: somewhere in the
lowercased bytecode the prefix occurs, and the suffix occurs at least 40
characters after the prefix's end (the prefix is 20 characters long). -/
def Eip1167Present (clean : String) : Prop :=
  ∃ i j, eip1167Head.data <+: (toLowerStr clean).data.drop i ∧
    eip1167Tail.data <+: (toLowerStr clean).data.drop j ∧
    i + eip1167Head.length + 40 ≤ j

theorem detectEip1167_iff (clean : String) :
    detectEip1167 clean = true ↔ Eip1167Present clean := by
  unfold detectEip1167 Eip1167Present indexOfFrom
  dsimp only
  constructor
  · intro h
    rcases hfind : findFromAux eip1167Head.data ((toLowerStr clean).data.drop 0) 0
      with _ | idx
    · rw [hfind] at h; simp at h
    · rw [hfind] at h
      dsimp only at h
      obtain ⟨_, hpre⟩ := findFromAux_some _ _ _ _ hfind
      rcases hsome : findFromAux eip1167Tail.data
          ((toLowerStr clean).data.drop (idx + eip1167Head.length + 40))
          (idx + eip1167Head.length + 40) with _ | j
      · rw [hsome] at h; simp at h
      · obtain ⟨hle2, hpre2⟩ := findFromAux_some _ _ _ _ hsome
        refine ⟨idx, j, by simpa using hpre, ?_, hle2⟩
        rw [List.drop_drop] at hpre2
        have he : idx + eip1167Head.length + 40 + (j - (idx + eip1167Head.length + 40)) = j := by
          omega
        rwa [he] at hpre2
  · rintro ⟨i, j, hI, hJ, hle⟩
    obtain ⟨i0, hfind, hi0⟩ := findFromAux_found eip1167Head.data
      ((toLowerStr clean).data.drop 0) 0 i (Nat.zero_le _) (by simpa using hI)
    rw [hfind]
    dsimp only
    obtain ⟨j0, hfind2, _⟩ := findFromAux_found eip1167Tail.data
      ((toLowerStr clean).data.drop (i0 + eip1167Head.length + 40))
      (i0 + eip1167Head.length + 40) j (by omega)
      (by
        rw [List.drop_drop]
        have he : i0 + eip1167Head.length + 40 + (j - (i0 + eip1167Head.length + 40)) = j := by
          omega
        rw [he]
        exact hJ)
    rw [hfind2]
    rfl

instance (clean : String) : Decidable (Eip1167Present clean) :=
  decidable_of_iff _ (detectEip1167_iff clean)

theorem two_mem_length {α : Type} {l : List α} {a b : α}
    (ha : a ∈ l) (hb : b ∈ l) (hne : a ≠ b) : 2 ≤ l.length := by
  cases l with
  | nil => cases ha
  | cons c t =>
    cases t with
    | nil =>
      rcases List.mem_singleton.mp ha with rfl
      rcases List.mem_singleton.mp hb with rfl
      exact absurd rfl hne
    | cons d u => simp only [List.length_cons]; omega

/-- The Diamond condition as the spec states it: two storage-typed sites
whose slot literals differ. -/
def DiamondCondition (sites : List DelegatecallSite) : Prop :=
  ∃ a ∈ sites, ∃ b ∈ sites,
    a.classification.type = TargetType.storage ∧
    b.classification.type = TargetType.storage ∧
    ∃ x y, a.classification.storageSlotLiteral = some x ∧
      b.classification.storageSlotLiteral = some y ∧ x ≠ y

theorem detectDiamondPattern_iff (sites : List DelegatecallSite) :
    detectDiamondPattern sites = true ↔ DiamondCondition sites := by
  unfold detectDiamondPattern DiamondCondition
  dsimp only
  constructor
  · intro h
    split at h
    · cases h
    · split at h
      · cases h
      · have h2 : 2 ≤ ((sites.filter (fun s =>
            s.classification.type = TargetType.storage)).filterMap
            (fun s => s.classification.storageSlotLiteral)).dedup.length := by
          simpa using h
        set dl := ((sites.filter (fun s =>
          s.classification.type = TargetType.storage)).filterMap
          (fun s => s.classification.storageSlotLiteral)).dedup with hdl
        have hnodup : dl.Nodup := List.nodup_dedup _
        rcases hdle : dl with _ | ⟨x, tl⟩
        · rw [hdle] at h2; simp at h2
        · rcases htl : tl with _ | ⟨y, tl2⟩
          · rw [hdle, htl] at h2; simp at h2
          · have hx : x ∈ dl := by rw [hdle]; exact List.mem_cons_self _ _
            have hy : y ∈ dl := by rw [hdle, htl]; simp
            have hxy : x ≠ y := by
              rw [hdle, htl] at hnodup
              intro he
              subst he
              exact (List.nodup_cons.mp hnodup).1 (by simp)
            have hx' := List.mem_dedup.mp (hdl ▸ hx)
            have hy' := List.mem_dedup.mp (hdl ▸ hy)
            obtain ⟨a, ha, hax⟩ := List.mem_filterMap.mp hx'
            obtain ⟨b, hb, hby⟩ := List.mem_filterMap.mp hy'
            have ha' := List.mem_filter.mp ha
            have hb' := List.mem_filter.mp hb
            exact ⟨a, ha'.1, b, hb'.1, by simpa using ha'.2, by simpa using hb'.2,
              x, y, hax, hby, hxy⟩
  · rintro ⟨a, ha, b, hb, hta, htb, x, y, hx, hy, hxy⟩
    have hab : a ≠ b := by
      intro he
      subst he
      rw [hx] at hy
      exact hxy (Option.some.inj hy)
    have haf : a ∈ sites.filter (fun s => s.classification.type = TargetType.storage) :=
      List.mem_filter.mpr ⟨ha, by simpa using hta⟩
    have hbf : b ∈ sites.filter (fun s => s.classification.type = TargetType.storage) :=
      List.mem_filter.mpr ⟨hb, by simpa using htb⟩
    have hs2 : 2 ≤ sites.length := two_mem_length ha hb hab
    have hf2 : 2 ≤ (sites.filter
        (fun s => s.classification.type = TargetType.storage)).length :=
      two_mem_length haf hbf hab
    have hxm : x ∈ ((sites.filter (fun s =>
        s.classification.type = TargetType.storage)).filterMap
        (fun s => s.classification.storageSlotLiteral)).dedup :=
      List.mem_dedup.mpr (List.mem_filterMap.mpr ⟨a, haf, hx⟩)
    have hym : y ∈ ((sites.filter (fun s =>
        s.classification.type = TargetType.storage)).filterMap
        (fun s => s.classification.storageSlotLiteral)).dedup :=
      List.mem_dedup.mpr (List.mem_filterMap.mpr ⟨b, hbf, hy⟩)
    have hd2 := two_mem_length hxm hym hxy
    rw [if_neg (by omega), if_neg (by omega)]
    simpa using hd2

instance (sites : List DelegatecallSite) : Decidable (DiamondCondition sites) :=
  decidable_of_iff _ (detectDiamondPattern_iff sites)

/-- The UUPS side condition as the spec states it: some site's storage-slot
literal (lowercased) is the UUPS slot. -/
def UupsSlotPresent (sites : List DelegatecallSite) : Prop :=
  ∃ t ∈ sites, t.classification.storageSlotLiteral.map toLowerStr = some UUPS_SLOT

theorem storageSlots_contains_iff (sites : List DelegatecallSite) :
    (sites.filterMap (fun s =>
      s.classification.storageSlotLiteral.map toLowerStr)).contains UUPS_SLOT = true ↔
    UupsSlotPresent sites := by
  unfold UupsSlotPresent
  rw [show (sites.filterMap (fun s =>
    s.classification.storageSlotLiteral.map toLowerStr)).contains UUPS_SLOT =
    List.elem UUPS_SLOT (sites.filterMap (fun s =>
      s.classification.storageSlotLiteral.map toLowerStr)) from rfl]
  rw [List.elem_iff]
  simp [List.mem_filterMap]

instance (sites : List DelegatecallSite) : Decidable (UupsSlotPresent sites) :=
  decidable_of_iff _ (storageSlots_contains_iff sites)

/-- The per-site pattern rule of spec §4.5, stated with the specification's
own conditions (priority EIP-1167 > EIP-1967/UUPS > Diamond, at most one
pattern per site). -/
def specPatternFor (bytecode : String) (sites : List DelegatecallSite)
    (site : DelegatecallSite) : Option ProxyPatternMatch :=
  if Eip1167Present (stripHex bytecode) then
    some ⟨"EIP-1167", "Minimal proxy clone pattern"⟩
  else if site.classification.storageSlotLiteral.map toLowerStr = some EIP1967_IMPL_SLOT then
    if UupsSlotPresent sites then some ⟨"UUPS", "UUPS upgradeable proxy pattern"⟩
    else some ⟨"EIP-1967", "EIP-1967 transparent proxy implementation slot"⟩
  else if DiamondCondition sites then
    some ⟨"Diamond", "EIP-2535 Diamond pattern (multiple facets)"⟩
  else none

/-- C6 (confirmed): `detectProxyPatterns` attaches to each site exactly the
pattern given by the priority rule EIP-1167 > EIP-1967/UUPS > Diamond (at
most one per site, `none` otherwise), where the EIP-1167 trigger is the
byte-level prefix/suffix occurrence (40+ characters apart), the UUPS
override fires when any site's slot set contains the UUPS slot, and the
Diamond trigger is two storage sites with distinct literal slots. -/
theorem C6_pattern_rule (bytecode : String) (sites : List DelegatecallSite) :
    detectProxyPatterns bytecode sites =
      sites.map (fun site =>
        { site with patternMatch := specPatternFor bytecode sites site }) ∧
    (detectEip1167 (stripHex bytecode) = true ↔ Eip1167Present (stripHex bytecode)) ∧
    (detectDiamondPattern sites = true ↔ DiamondCondition sites) ∧
    ((sites.filterMap (fun s =>
      s.classification.storageSlotLiteral.map toLowerStr)).contains UUPS_SLOT = true ↔
      UupsSlotPresent sites) := by
  refine ⟨?_, detectEip1167_iff _, detectDiamondPattern_iff _,
    storageSlots_contains_iff _⟩
  simp only [detectProxyPatterns]
  refine List.map_congr_left (fun site hs => ?_)
  simp only [specPatternFor]
  by_cases hE : Eip1167Present (stripHex bytecode)
  · rw [if_pos ((detectEip1167_iff _).mpr hE), if_pos hE]
  · rw [if_neg (fun hc => hE ((detectEip1167_iff _).mp hc)), if_neg hE]
    by_cases hSlot :
        site.classification.storageSlotLiteral.map toLowerStr = some EIP1967_IMPL_SLOT
    · rw [if_pos hSlot, if_pos hSlot]
      by_cases hU : UupsSlotPresent sites
      · rw [if_pos ((storageSlots_contains_iff sites).mpr hU), if_pos hU]
      · rw [if_neg (fun hc => hU ((storageSlots_contains_iff sites).mp hc)), if_neg hU]
    · rw [if_neg hSlot, if_neg hSlot]
      by_cases hD : DiamondCondition sites
      · rw [if_pos ((detectDiamondPattern_iff sites).mpr hD), if_pos hD]
      · rw [if_neg (fun hc => hD ((detectDiamondPattern_iff sites).mp hc)), if_neg hD]

/-! ## C3: malformed input -/

/-- C3 (corrected): malformed hex input is NOT rejected — the disassembler
has no failure path (`parseInt` silently parses the chunks; an odd trailing
character is parsed as a single hex digit) and the analysis returns a report
for every input; here stated for linear mode over inputs whose characters
are hex digits (where the `parseInt` model is exact), including all
odd-length ones. -/
theorem C3_total (s : String) (fuel : Nat)
    (_hhex : ∀ c ∈ (stripHex s).data, isHexChar c = true) :
    (analyzeBytecode fuel s false).isSome = true := by
  simp [analyzeBytecode]

theorem C3_total_witness : (analyzeBytecode 0 "abc" false).isSome = true :=
  C3_total "abc" 0 (by decide)

/-- C3 counterexample: `"abc"` has odd length and only hex characters, yet
the analysis (in either mode) returns a report — with zero sites — instead of
failing with a malformed-input error: the decoder parses `"ab"` and the lone
`"c"`. -/
theorem C3_cex :
    ("abc" : String).length % 2 = 1 ∧
    (∀ c ∈ ("abc" : String).data, isHexChar c = true) ∧
    decodeBytecode "abc" = [⟨0, "0xab", none, 0, 0⟩, ⟨1, "0x0c", none, 0, 0⟩] ∧
    analyzeBytecode 0 "abc" true = some ⟨0, none, [], []⟩ ∧
    analyzeBytecode 0 "abc" false = some ⟨0, none, [], []⟩ := by
  refine ⟨by decide, by decide, by decide, by decide, by decide⟩

end DSS
